import Mathlib

/- Verification of the tumbling-window aggregation operator
   (`arroyo-worker/src/arrow/tumbling_aggregating_window.rs`).

   The operator groups event-time records into fixed-width bins, feeds each bin an
   incremental partial-aggregation execution, finalizes bins as the watermark passes
   their end, and checkpoints in-flight per-bin partial batches to a durable store.

   Embedding decisions:
   * Times are nanosecond counts (`Nat`), matching `to_nanos`/`width.as_nanos()`.
   * An input row is its `_timestamp` value paired with an opaque payload.
   * The compiled partial-aggregation plan and finish plan are external collaborators
     (datafusion execution plans); they are parameters of the model.  A running partial
     execution (`active_exec`) is represented by the list of record batches fed to its
     channel so far; draining it to completion applies the partial plan to that list.
   * The `BTreeMap`s `execs` and `senders` are represented as key-sorted association
     lists (the sender payload is the channel, whose queued content already lives in
     the paired execution, so only the key set is modelled).
-/

namespace Tumbling

/-- One input row: its event-time in nanoseconds (the `_timestamp` column) and its
payload value. -/
abbrev Row : Type := Nat × Int

/-- Watermark signals (`arroyo_types::Watermark`): an event-time bound or idleness. -/
inductive Watermark where
  | idle : Watermark
  | eventTime (nanos : Nat) : Watermark
deriving DecidableEq, Repr

/-- Association-list lookup, standing for `BTreeMap::get`. -/
def lookup {α : Type} : List (Nat × α) → Nat → Option α
  | [], _ => none
  | (k, v) :: rest, key => if key = k then some v else lookup rest key

/-- Insert-or-replace keeping keys sorted, standing for `BTreeMap::insert` (and for the
mutation performed through `BTreeMap::entry`). -/
def setEntry {α : Type} : List (Nat × α) → Nat → α → List (Nat × α)
  | [], key, v => [(key, v)]
  | (k, w) :: rest, key, v =>
    if key = k then (key, v) :: rest
    else if key < k then (key, v) :: (k, w) :: rest
    else (k, w) :: setEntry rest key v

/-- Sorted duplicate-free key insertion (key set of a `BTreeMap`). -/
def insertKey : Nat → List Nat → List Nat
  | key, [] => [key]
  | key, k :: rest =>
    if key = k then k :: rest
    else if key < k then key :: k :: rest
    else k :: insertKey key rest

/-- Key removal, standing for `BTreeMap::remove`. -/
def removeKey : List Nat → Nat → List Nat
  | [], _ => []
  | k :: rest, key => if key = k then rest else k :: removeKey rest key

/-- The distinct elements of a list in ascending order. -/
def sortedDedup (l : List Nat) : List Nat :=
  l.foldl (fun acc k => insertKey k acc) []

/-- Per-bin state, `BinComputingHolder`.  `active_exec` models the live partial
aggregation execution as the batches fed to its channel so far (`none` when the bin has
no running execution); `finished_batches` buffers already-produced partial batches. -/
structure BinComputingHolder (B : Type) where
  active_exec : Option (List (List Row))
  finished_batches : List B
deriving DecidableEq

/-- The static configuration of `TumblingAggregatingWindowFunc`: the window width in
nanoseconds (`width.as_nanos()`), the window column position and field name, the shape
of the finish plan's output schema (`out_cols` columns named `src_fields`), and the two
compiled execution plans, modelled as the functions they compute when pulled to
completion. -/
structure TumblingConfig (B : Type) where
  width : Nat
  window_index : Nat
  out_cols : Nat
  src_fields : List String
  window_field_name : String
  partial_aggregation_plan : List (List Row) → List B
  finish_execution_plan : List B → List B

/-- The mutable operator state: the keys of the `senders` map (bins with a live feed
channel) and the `execs` registry, both key-sorted as `BTreeMap`s are. -/
structure OpState (B : Type) where
  senders : List Nat
  execs : List (Nat × BinComputingHolder B)
deriving DecidableEq

/-- The fresh operator state (`BTreeMap::new()` for both maps). -/
def initState (B : Type) : OpState B := ⟨[], []⟩

/-- `time_to_bin`: `(to_nanos(time) / width.as_nanos()) as usize`. -/
def time_to_bin (width t : Nat) : Nat := t / width

/-- The bin id of one row.  The compiled binning expression is an external collaborator;
it computes the tumbling bin `floor(timestamp_nanos / width_nanos)` of the row's
`_timestamp`, which is the inverse of `time_to_bin` used by recovery. -/
def rowBin (width : Nat) (r : Row) : Nat := r.1 / width

/-- The holder update performed by dispatching one same-bin partition to a bin: on
first touch a fresh execution fed exactly this partition is started, otherwise the
partition is sent onto the existing channel. -/
def feedHolder {B : Type} (g : List Row) (h : BinComputingHolder B) : BinComputingHolder B :=
  match h.active_exec with
  | none => ⟨some [g], h.finished_batches⟩
  | some fed => ⟨some (fed ++ [g]), h.finished_batches⟩

/-- Dispatch of one contiguous same-bin partition of a sorted batch (the body of the
`for range in partition.ranges()` loop of `process_batch`): fetch-or-create the bin's
holder (`entry(bin).or_default()`), on first touch create the feed channel, register
the sender and start a fresh partial execution, then send the partition. -/
def processGroup {B : Type} (st : OpState B) (bin : Nat) (group : List Row) : OpState B :=
  let h := (lookup st.execs bin).getD ⟨none, []⟩
  match h.active_exec with
  | none =>
    ⟨insertKey bin st.senders, setEntry st.execs bin ⟨some [group], h.finished_batches⟩⟩
  | some fed =>
    ⟨st.senders, setEntry st.execs bin ⟨some (fed ++ [group]), h.finished_batches⟩⟩

/-- The distinct bin ids occurring in a batch, ascending: the batch is stably sorted by
bin (`sort_to_indices` + `take`) and partitioned into ranges of equal bin, so the
partitions are exactly, in ascending bin order, the rows of each distinct bin in their
original relative order. -/
def batchBins (width : Nat) (rows : List Row) : List Nat :=
  sortedDedup (rows.map (rowBin width))

/-- `process_batch`: evaluate the binning expression on the `_timestamp` column, sort
and partition the batch by bin, and dispatch each partition via `processGroup`. -/
def process_batch {B : Type} (cfg : TumblingConfig B) (st : OpState B) (rows : List Row) :
    OpState B :=
  (batchBins cfg.width rows).foldl
    (fun s bin => processGroup s bin (rows.filter (fun r => rowBin cfg.width r == bin))) st

/-- A sequence of `process_batch` calls. -/
def process_batches {B : Type} (cfg : TumblingConfig B) (st : OpState B)
    (batches : List (List Row)) : OpState B :=
  batches.foldl (process_batch cfg) st

/-- The full buffered partial-batch set of a popped bin: if the bin still has a live
execution it is drained to completion and its output appended to `finished_batches`
(the drain loop of `handle_watermark`), otherwise the buffer is used as is. -/
def bin_finished {B : Type} (cfg : TumblingConfig B) (h : BinComputingHolder B) : List B :=
  match h.active_exec with
  | some fed => h.finished_batches ++ cfg.partial_aggregation_plan fed
  | none => h.finished_batches

/-- One batch emitted downstream during finalization: the bin it came from and the
finish plan's output batch (before window-metadata attachment). -/
structure Emit (B : Type) where
  bin : Nat
  batch : B
deriving DecidableEq

/-- The emissions produced by finalizing one bin: the finish execution plan is run over
the bin's full buffered partial-batch set and each produced batch is collected. -/
def emitsOfBin {B : Type} (cfg : TumblingConfig B) (k : Nat) (h : BinComputingHolder B) :
    List (Emit B) :=
  (cfg.finish_execution_plan (bin_finished cfg h)).map (fun b => ⟨k, b⟩)

/-- Sender-map update when a bin is popped: `senders.remove(&popped_bin)` runs exactly
when the popped bin had a live execution. -/
def removeSender {B : Type} (s : List Nat) (k : Nat) (h : BinComputingHolder B) : List Nat :=
  match h.active_exec with
  | some _ => removeKey s k
  | none => s

/-- The `while !self.execs.is_empty()` loop of `handle_watermark`: as long as the
registry's minimum bin id is strictly below `cb`, pop it, drain and finalize it and
emit its output; stop at the first bin id at or above `cb`. -/
def closeLoop {B : Type} (cfg : TumblingConfig B) (cb : Nat) :
    List (Nat × BinComputingHolder B) → List Nat →
      List (Nat × BinComputingHolder B) × List Nat × List (Emit B)
  | [], s => ([], s, [])
  | (k, h) :: rest, s =>
    if k < cb then
      let r := closeLoop cfg cb rest (removeSender s k h)
      (r.1, r.2.1, emitsOfBin cfg k h ++ r.2.2)
    else ((k, h) :: rest, s, [])

/-- `handle_watermark`: on an event-time watermark, close every bin whose id is below
`watermark_nanos / width_nanos`; on an idle watermark do nothing.  Returns the new
state, the emitted batches in emission order, and the watermark broadcast downstream
(`ctx.broadcast` at the end of the handler). -/
def handle_watermark {B : Type} (cfg : TumblingConfig B) (st : OpState B) (w : Watermark) :
    OpState B × List (Emit B) × Watermark :=
  match w with
  | .idle => (st, [], .idle)
  | .eventTime t =>
    let r := closeLoop cfg (t / cfg.width) st.execs st.senders
    (⟨r.2.1, r.1⟩, r.2.2, .eventTime t)

/-- A column of an emitted (collected) batch: either column `i` of the finish plan's
output batch, the synthesized constant `_timestamp` column, or the window struct
column holding `(window_start, window_end)`. -/
inductive EmitCol (B : Type) where
  | src (b : B) (i : Nat)
  | tsCol (t : Int)
  | windowCol (ws we : Int)
deriving DecidableEq

/-- List insertion at an index (`Vec::insert`); an out-of-range index appends (the Rust
code panics there, and every use below carries the in-range bound). -/
def insertAtIdx {α : Type} : Nat → α → List α → List α
  | 0, a, l => a :: l
  | _ + 1, a, [] => [a]
  | n + 1, a, x :: xs => x :: insertAtIdx n a xs

/-- The columns of the batch passed to `ctx.collect` when bin `bin` emits finish-output
batch `b`: the batch's own columns, then the pushed constant `_timestamp` column
`bin_end - 1`, then the window struct column `(bin_start, bin_end)` inserted at
`window_index`, where `bin_start = bin * width_nanos` and `bin_end = bin_start + width`. -/
def emit_columns {B : Type} (cfg : TumblingConfig B) (bin : Nat) (b : B) : List (EmitCol B) :=
  let bin_start : Int := ((bin * cfg.width : Nat) : Int)
  let bin_end : Int := bin_start + (cfg.width : Int)
  insertAtIdx cfg.window_index (.windowCol bin_start bin_end)
    (((List.range cfg.out_cols).map (fun i => .src b i)) ++ [.tsCol (bin_end - 1)])

/-- The field names of the collected batch: the finish schema's fields, then the pushed
`"_timestamp"` field, then the window field inserted at `window_index`. -/
def emit_fields {B : Type} (cfg : TumblingConfig B) : List String :=
  insertAtIdx cfg.window_index cfg.window_field_name (cfg.src_fields ++ ["_timestamp"])

/-- One row of the durable state table: the key time passed to `table.insert`
(`from_nanos(bucket_nanos)`), the appended synthetic timestamp column
(`bucket_nanos as i64`), and the drained partial batch itself. -/
structure StateBatch (B : Type) where
  key_time : Nat
  ts_col : Int
  batch : B
deriving DecidableEq

/-- The durable state table content, in insertion order. -/
abbrev Store (B : Type) := List (StateBatch B)

/-- The body of the `for key in keys` loop of `handle_checkpoint`: look up the bin of a
registered sender (`execs.get_mut(&key).unwrap()`), take its live execution
(`.take().expect(..)`) — `none` models the panic when either is absent — drain it,
insert every drained batch into the table keyed by the bin's start time with the
synthetic timestamp column attached, and retain the drained batches in
`finished_batches`. -/
def checkpointKey {B : Type} (cfg : TumblingConfig B)
    (acc : Option (List (Nat × BinComputingHolder B) × Store B)) (key : Nat) :
    Option (List (Nat × BinComputingHolder B) × Store B) := do
  let (execs, store) ← acc
  let h ← lookup execs key
  let fed ← h.active_exec
  let bucket_nanos := key * cfg.width
  let drained := cfg.partial_aggregation_plan fed
  pure (setEntry execs key ⟨none, h.finished_batches ++ drained⟩,
    store ++ drained.map (fun b => ⟨bucket_nanos, (bucket_nanos : Int), b⟩))

/-- `handle_checkpoint`: snapshot the registered sender keys, clear the sender map,
flush every such bin as in `checkpointKey`, then call `table.flush(watermark)`.  The
returned triple is the new operator state, the table content after the inserts, and
the watermark value passed to the flush call. -/
def handle_checkpoint {B : Type} (cfg : TumblingConfig B) (st : OpState B) (store : Store B)
    (wm : Option Nat) : Option (OpState B × Store B × Option Nat) := do
  let r ← st.senders.foldl (checkpointKey cfg) (some (st.execs, store))
  pure (⟨[], r.1⟩, r.2, wm)

/-- Modelled from the spec: `ExpiringTimeKeyTable::all_batches_for_watermark` (the
durable-store implementation is outside this subsystem).  Per the spec it returns every
persisted row visible at the last watermark grouped by stored bin-start timestamp; the
rows of one key are its inserted partial batches, in insertion order, and visibility is
modelled as full visibility (the checkpoints under study precede any expiry). -/
def all_batches_for_watermark {B : Type} (store : Store B) (_wm : Option Nat) :
    List (Nat × List B) :=
  (sortedDedup (store.map (fun s => s.key_time))).map
    (fun t => (t, (store.filter (fun s => s.key_time == t)).map (fun s => s.batch)))

/-- The body of the `for (timestamp, batch) in table.all_batches_for_watermark` loop of
`on_start`: convert the stored timestamp back to a bin id via `time_to_bin` and push
every stored batch onto that bin's `finished_batches` (`entry(bin).or_default()`). -/
def addStoredPair {B : Type} (width : Nat) (execs : List (Nat × BinComputingHolder B))
    (p : Nat × List B) : List (Nat × BinComputingHolder B) :=
  let bin := p.1 / width
  let h := (lookup execs bin).getD ⟨none, []⟩
  setEntry execs bin ⟨h.active_exec, h.finished_batches ++ p.2⟩

/-- `on_start`: from a fresh operator, reload the durable table and rebuild the
registry from the persisted batches; no sender or live execution is created. -/
def on_start {B : Type} (cfg : TumblingConfig B) (store : Store B) (wm : Option Nat) :
    OpState B :=
  ⟨[], (all_batches_for_watermark store wm).foldl (addStoredPair cfg.width) []⟩

/-- The registry entry of a bin, defaulting to the empty holder. -/
def holderOf {B : Type} (execs : List (Nat × BinComputingHolder B)) (k : Nat) :
    BinComputingHolder B :=
  (lookup execs k).getD ⟨none, []⟩

/-- The batches fed so far to a bin's live execution (empty when there is none). -/
def fedOf {B : Type} (execs : List (Nat × BinComputingHolder B)) (k : Nat) :
    List (List Row) :=
  (holderOf execs k).active_exec.getD []

/-- A bin id has a live partial execution in the registry. -/
def activeAt {B : Type} (execs : List (Nat × BinComputingHolder B)) (k : Nat) : Prop :=
  ∃ h, lookup execs k = some h ∧ h.active_exec.isSome = true

/-- The sender map and the live executions agree: a bin id is registered in `senders`
exactly when its registry entry holds a live execution. -/
def SendersMatch {B : Type} (st : OpState B) : Prop :=
  ∀ k, k ∈ st.senders ↔ activeAt st.execs k

/-- Well-formedness of the operator state: both `BTreeMap`s are key-sorted (their
representation invariant) and the sender map matches the live executions. -/
def WF {B : Type} (st : OpState B) : Prop :=
  st.senders.Pairwise (· < ·) ∧ st.execs.Pairwise (fun a b => a.1 < b.1) ∧ SendersMatch st

/-- The bin ids finalized by handling event-time watermark `t` on state `st`: the
longest registry prefix of bin ids strictly below `t / width`. -/
def finalizedKeys {B : Type} (cfg : TumblingConfig B) (st : OpState B) (t : Nat) : List Nat :=
  (st.execs.map Prod.fst).takeWhile (fun k => decide (k < t / cfg.width))

/-- The same-bin groups a batch sequence contributes to bin `b`: per batch, its rows
with bin `b` in order, keeping only non-empty groups (a bin is only dispatched to when
a partition for it exists). -/
def groupsFor (width : Nat) (batches : List (List Row)) (b : Nat) : List (List Row) :=
  (batches.map (fun rows => rows.filter (fun r => rowBin width r == b))).filter
    (fun g => decide (g ≠ []))

/-- A concrete partial-aggregation plan used by the closed witnesses: per drain, one
partial batch holding the sum of the fed payload values. -/
def sumPartial (fed : List (List Row)) : List Int := [(fed.flatten.map Prod.snd).sum]

/-- A concrete finish plan used by the closed witnesses: one final batch holding the
sum of the partial batches. -/
def sumFinish (ps : List Int) : List Int := [ps.sum]

/-- A concrete operator configuration for the closed witnesses: width 10ns, window
column at index 0, one aggregate output column. -/
def testCfg : TumblingConfig Int :=
  ⟨10, 0, 1, ["agg"], "window", sumPartial, sumFinish⟩

/-- A concrete registry state for the closed witnesses: bins 0 and 2 hold buffered
partial batches and no live execution. -/
def witnessState : OpState Int :=
  ⟨[], [(0, ⟨none, [5]⟩), (2, ⟨none, [7]⟩)]⟩

/-! Basic lemmas about the map representations. -/

theorem lookup_setEntry_self {α : Type} (l : List (Nat × α)) (k : Nat) (v : α) :
    lookup (setEntry l k v) k = some v := by
  induction l with
  | nil => simp [setEntry, lookup]
  | cons a rest ih =>
    by_cases h1 : k = a.1
    · simp [setEntry, h1, lookup]
    · by_cases h2 : k < a.1
      · simp [setEntry, h1, h2, lookup]
      · simp [setEntry, h1, h2, lookup, ih]

theorem lookup_setEntry_ne {α : Type} (l : List (Nat × α)) (k k' : Nat) (v : α)
    (h : k' ≠ k) : lookup (setEntry l k v) k' = lookup l k' := by
  induction l with
  | nil => simp [setEntry, lookup, h]
  | cons a rest ih =>
    by_cases h1 : k = a.1
    · subst h1
      simp [setEntry, lookup, h]
    · by_cases h2 : k < a.1
      · simp [setEntry, h1, h2, lookup, h]
      · by_cases h3 : k' = a.1
        · simp [setEntry, h1, h2, lookup, h3]
        · simp [setEntry, h1, h2, lookup, h3, ih]

theorem mem_setEntry {α : Type} (l : List (Nat × α)) (k : Nat) (v : α) (a : Nat × α)
    (ha : a ∈ setEntry l k v) : a.1 = k ∨ a ∈ l := by
  induction l with
  | nil =>
    simp [setEntry] at ha
    simp [ha]
  | cons x rest ih =>
    by_cases h1 : k = x.1
    · simp [setEntry, h1] at ha
      rcases ha with ha | ha
      · left; simp [ha, h1]
      · right; simp [ha]
    · by_cases h2 : k < x.1
      · simp [setEntry, h1, h2] at ha
        rcases ha with ha | ha | ha
        · left; simp [ha]
        · right; simp [ha]
        · right; simp [ha]
      · simp [setEntry, h1, h2] at ha
        rcases ha with ha | ha
        · right; simp [ha]
        · rcases ih ha with h | h
          · left; exact h
          · right; simp [h]

theorem pairwise_setEntry {α : Type} (l : List (Nat × α)) (k : Nat) (v : α)
    (hl : l.Pairwise (fun a b => a.1 < b.1)) :
    (setEntry l k v).Pairwise (fun a b => a.1 < b.1) := by
  induction l with
  | nil => simp [setEntry]
  | cons x rest ih =>
    rcases List.pairwise_cons.mp hl with ⟨hx, hrest⟩
    by_cases h1 : k = x.1
    · subst h1
      simpa [setEntry] using List.pairwise_cons.mpr ⟨hx, hrest⟩
    · by_cases h2 : k < x.1
      · simp only [setEntry, if_neg h1, if_pos h2]
        refine List.pairwise_cons.mpr ⟨?_, List.pairwise_cons.mpr ⟨hx, hrest⟩⟩
        intro b hb
        rcases List.mem_cons.mp hb with hb | hb
        · simp [hb, h2]
        · exact lt_trans h2 (hx b hb)
      · simp only [setEntry, if_neg h1, if_neg h2]
        refine List.pairwise_cons.mpr ⟨?_, ih hrest⟩
        intro b hb
        rcases mem_setEntry rest k v b hb with h | h
        · omega
        · exact hx b h

theorem mem_insertKey (k : Nat) (l : List Nat) (x : Nat) :
    x ∈ insertKey k l ↔ x = k ∨ x ∈ l := by
  induction l with
  | nil => simp [insertKey]
  | cons a rest ih =>
    by_cases h1 : k = a
    · subst h1
      simp [insertKey]
    · by_cases h2 : k < a
      · simp [insertKey, h1, h2]
      · simp [insertKey, h1, h2, ih]
        tauto

theorem pairwise_insertKey (k : Nat) (l : List Nat) (hl : l.Pairwise (· < ·)) :
    (insertKey k l).Pairwise (· < ·) := by
  induction l with
  | nil => simp [insertKey]
  | cons a rest ih =>
    rcases List.pairwise_cons.mp hl with ⟨ha, hrest⟩
    by_cases h1 : k = a
    · subst h1
      simp only [insertKey, if_pos rfl]
      exact List.pairwise_cons.mpr ⟨ha, hrest⟩
    · by_cases h2 : k < a
      · simp only [insertKey, if_neg h1, if_pos h2]
        refine List.pairwise_cons.mpr ⟨?_, List.pairwise_cons.mpr ⟨ha, hrest⟩⟩
        intro b hb
        rcases List.mem_cons.mp hb with hb | hb
        · omega
        · exact lt_trans h2 (ha b hb)
      · simp only [insertKey, if_neg h1, if_neg h2]
        refine List.pairwise_cons.mpr ⟨?_, ih hrest⟩
        intro b hb
        rcases (mem_insertKey k rest b).mp hb with h | h
        · omega
        · exact ha b h

theorem removeKey_sublist (l : List Nat) (k : Nat) : (removeKey l k).Sublist l := by
  induction l with
  | nil => simp [removeKey]
  | cons a rest ih =>
    by_cases h : k = a
    · simp only [removeKey, if_pos h]
      exact List.sublist_cons_self a rest
    · simpa [removeKey, h] using ih.cons₂ a

theorem pairwise_removeKey (l : List Nat) (k : Nat) (hl : l.Pairwise (· < ·)) :
    (removeKey l k).Pairwise (· < ·) :=
  hl.sublist (removeKey_sublist l k)

theorem mem_removeKey (l : List Nat) (k x : Nat) (hl : l.Pairwise (· < ·)) :
    x ∈ removeKey l k ↔ x ∈ l ∧ x ≠ k := by
  induction l with
  | nil => simp [removeKey]
  | cons a rest ih =>
    rcases List.pairwise_cons.mp hl with ⟨ha, hrest⟩
    by_cases h : k = a
    · subst h
      simp only [removeKey, if_pos rfl]
      constructor
      · intro hx
        refine ⟨List.mem_cons_of_mem _ hx, ?_⟩
        intro hk
        subst hk
        exact lt_irrefl x (ha x hx)
      · rintro ⟨hx, hne⟩
        rcases List.mem_cons.mp hx with h | h
        · exact absurd h hne
        · exact h
    · simp only [removeKey, if_neg h, List.mem_cons, ih hrest]
      constructor
      · rintro (rfl | ⟨hx, hne⟩)
        · exact ⟨Or.inl rfl, fun hk => h hk.symm⟩
        · exact ⟨Or.inr hx, hne⟩
      · rintro ⟨rfl | hx, hne⟩
        · exact Or.inl rfl
        · exact Or.inr ⟨hx, hne⟩

theorem mem_sortedDedup_fold (l : List Nat) (acc : List Nat) (x : Nat) :
    x ∈ l.foldl (fun acc k => insertKey k acc) acc ↔ x ∈ l ∨ x ∈ acc := by
  induction l generalizing acc with
  | nil => simp
  | cons a rest ih =>
    simp only [List.foldl_cons, ih, mem_insertKey, List.mem_cons]
    tauto

theorem mem_sortedDedup (l : List Nat) (x : Nat) : x ∈ sortedDedup l ↔ x ∈ l := by
  simpa [sortedDedup] using mem_sortedDedup_fold l [] x

theorem pairwise_sortedDedup_fold (l : List Nat) (acc : List Nat)
    (hacc : acc.Pairwise (· < ·)) :
    (l.foldl (fun acc k => insertKey k acc) acc).Pairwise (· < ·) := by
  induction l generalizing acc with
  | nil => simpa
  | cons a rest ih => exact ih _ (pairwise_insertKey a acc hacc)

theorem pairwise_sortedDedup (l : List Nat) : (sortedDedup l).Pairwise (· < ·) :=
  pairwise_sortedDedup_fold l [] (List.Pairwise.nil)

theorem lookup_mem {α : Type} (l : List (Nat × α)) (k : Nat) (v : α)
    (h : lookup l k = some v) : (k, v) ∈ l := by
  induction l with
  | nil => simp [lookup] at h
  | cons a rest ih =>
    obtain ⟨k2, v2⟩ := a
    by_cases hk : k = k2
    · subst hk
      simp [lookup] at h
      simp [h]
    · simp [lookup, hk] at h
      exact List.mem_cons_of_mem _ (ih h)

theorem mem_lookup {α : Type} (l : List (Nat × α)) (k : Nat) (v : α)
    (hl : l.Pairwise (fun a b => a.1 < b.1)) (h : (k, v) ∈ l) : lookup l k = some v := by
  induction l with
  | nil => simp at h
  | cons a rest ih =>
    rcases List.pairwise_cons.mp hl with ⟨ha, hrest⟩
    rcases List.mem_cons.mp h with h | h
    · simp [← h, lookup]
    · have hk : k ≠ a.1 := by
        intro hk
        have := ha _ h
        simp [hk] at this
      simp [lookup, hk, ih hrest h]

theorem lookup_eq_none {α : Type} (l : List (Nat × α)) (k : Nat)
    (h : ∀ v, (k, v) ∉ l) : lookup l k = none := by
  induction l with
  | nil => simp [lookup]
  | cons a rest ih =>
    by_cases hk : k = a.1
    · exact absurd (by simp [hk] : (k, a.2) ∈ a :: rest) (h a.2)
    · simp only [lookup, if_neg hk]
      exact ih (fun v hv => h v (List.mem_cons_of_mem _ hv))

/-! The watermark finalization loop, characterized. -/

theorem closeLoop_eq {B : Type} (cfg : TumblingConfig B) (cb : Nat)
    (execs : List (Nat × BinComputingHolder B)) (s : List Nat) :
    closeLoop cfg cb execs s =
      (execs.dropWhile (fun e => decide (e.1 < cb)),
       (execs.takeWhile (fun e => decide (e.1 < cb))).foldl
         (fun s2 e => removeSender s2 e.1 e.2) s,
       (execs.takeWhile (fun e => decide (e.1 < cb))).flatMap
         (fun e => emitsOfBin cfg e.1 e.2)) := by
  induction execs generalizing s with
  | nil => simp [closeLoop]
  | cons a rest ih =>
    obtain ⟨k, h⟩ := a
    by_cases hk : k < cb
    · simp [closeLoop, hk, List.takeWhile_cons, List.dropWhile_cons, ih]
    · simp [closeLoop, hk, List.takeWhile_cons, List.dropWhile_cons]

theorem handle_watermark_eventTime {B : Type} (cfg : TumblingConfig B)
    (st : OpState B) (t : Nat) :
    handle_watermark cfg st (.eventTime t) =
      (⟨(st.execs.takeWhile (fun e => decide (e.1 < t / cfg.width))).foldl
          (fun s2 e => removeSender s2 e.1 e.2) st.senders,
        st.execs.dropWhile (fun e => decide (e.1 < t / cfg.width))⟩,
       (st.execs.takeWhile (fun e => decide (e.1 < t / cfg.width))).flatMap
          (fun e => emitsOfBin cfg e.1 e.2),
       .eventTime t) := by
  simp [handle_watermark, closeLoop_eq]

theorem takeWhile_lt_eq_filter {α : Type} (key : α → Nat) (cb : Nat) (l : List α)
    (hs : l.Pairwise (fun a b => key a < key b)) :
    l.takeWhile (fun e => decide (key e < cb)) = l.filter (fun e => decide (key e < cb)) := by
  induction l with
  | nil => rfl
  | cons a rest ih =>
    rcases List.pairwise_cons.mp hs with ⟨ha, hrest⟩
    by_cases hk : key a < cb
    · simp [List.takeWhile_cons, List.filter_cons, hk, ih hrest]
    · have hnil : rest.filter (fun e => decide (key e < cb)) = [] := by
        apply List.filter_eq_nil_iff.mpr
        intro b hb
        have := ha b hb
        simp only [decide_eq_true_eq]
        omega
      simp [List.takeWhile_cons, List.filter_cons, hk, hnil]

theorem dropWhile_lt_ge {α : Type} (key : α → Nat) (cb : Nat) (l : List α)
    (hs : l.Pairwise (fun a b => key a < key b)) :
    ∀ e ∈ l.dropWhile (fun e => decide (key e < cb)), cb ≤ key e := by
  induction l with
  | nil => simp
  | cons a rest ih =>
    rcases List.pairwise_cons.mp hs with ⟨ha, hrest⟩
    by_cases hk : key a < cb
    · simpa [List.dropWhile_cons, hk] using ih hrest
    · intro e he
      simp only [List.dropWhile_cons, decide_eq_true_eq, if_neg hk] at he
      rcases List.mem_cons.mp he with rfl | he
      · omega
      · have := ha e he
        omega

theorem mem_emitsOfBin_bin {B : Type} (cfg : TumblingConfig B) (k : Nat)
    (h : BinComputingHolder B) (em : Emit B) (hm : em ∈ emitsOfBin cfg k h) : em.bin = k := by
  simp only [emitsOfBin, List.mem_map] at hm
  obtain ⟨b, _, rfl⟩ := hm
  rfl

theorem pairwise_replicate_le (n : Nat) (c : Nat) :
    (List.replicate n c).Pairwise (fun a b => a ≤ b) := by
  induction n with
  | zero => simp
  | succ n ih =>
    simp only [List.replicate_succ]
    refine List.pairwise_cons.mpr ⟨?_, ih⟩
    intro b hb
    rw [List.eq_of_mem_replicate hb]

theorem emits_bins_pairwise {B : Type} (cfg : TumblingConfig B)
    (l : List (Nat × BinComputingHolder B)) (hl : l.Pairwise (fun a b => a.1 < b.1)) :
    ((l.flatMap (fun e => emitsOfBin cfg e.1 e.2)).map Emit.bin).Pairwise (fun a b => a ≤ b) := by
  induction l with
  | nil => simp
  | cons a rest ih =>
    rcases List.pairwise_cons.mp hl with ⟨ha, hrest⟩
    simp only [List.flatMap_cons, List.map_append]
    apply List.pairwise_append.mpr
    refine ⟨?_, ih hrest, ?_⟩
    · have : (emitsOfBin cfg a.1 a.2).map Emit.bin
          = List.replicate (cfg.finish_execution_plan (bin_finished cfg a.2)).length a.1 := by
        simp [emitsOfBin, Function.comp_def, List.map_const']
      rw [this]
      exact pairwise_replicate_le _ _
    · intro x hx y hy
      rcases List.mem_map.mp hx with ⟨ex, hex, rfl⟩
      rcases List.mem_map.mp hy with ⟨ey, hey, rfl⟩
      have hxa : ex.bin = a.1 := mem_emitsOfBin_bin cfg a.1 a.2 ex hex
      rcases List.mem_flatMap.mp hey with ⟨e, he, heme⟩
      have hye : ey.bin = e.1 := mem_emitsOfBin_bin cfg e.1 e.2 ey heme
      have := ha e he
      omega

theorem bin_lt_close_imp {width t k : Nat} (h : k < t / width) : (k + 1) * width ≤ t := by
  rcases Nat.eq_zero_or_pos width with hw | hw
  · subst hw
    simp [Nat.div_zero] at h
  · exact le_trans ((Nat.le_div_iff_mul_le hw).mp h) (le_refl t)

/-! Dispatch lemmas. -/

theorem processGroup_eq {B : Type} (st : OpState B) (bin : Nat) (g : List Row) :
    processGroup st bin g =
      ⟨(if ((lookup st.execs bin).getD ⟨none, []⟩).active_exec.isSome then st.senders
        else insertKey bin st.senders),
       setEntry st.execs bin (feedHolder g ((lookup st.execs bin).getD ⟨none, []⟩))⟩ := by
  cases hx : ((lookup st.execs bin).getD ⟨none, []⟩).active_exec <;>
    simp [processGroup, feedHolder, hx]

theorem processGroup_lookup_ne {B : Type} (st : OpState B) (bin : Nat) (g : List Row)
    (b : Nat) (hb : b ≠ bin) :
    lookup (processGroup st bin g).execs b = lookup st.execs b := by
  rw [processGroup_eq]
  exact lookup_setEntry_ne _ _ _ _ hb

theorem foldl_processGroup_lookup_not_mem {B : Type} (rows : List Row) (w : Nat)
    (bl : List Nat) (st : OpState B) (b : Nat) (hb : b ∉ bl) :
    lookup ((bl.foldl (fun s bin =>
        processGroup s bin (rows.filter (fun r => rowBin w r == bin))) st).execs) b
      = lookup st.execs b := by
  induction bl generalizing st with
  | nil => rfl
  | cons a rest ih =>
    have hba : b ≠ a := fun h => hb (h ▸ List.mem_cons_self a rest)
    simp only [List.foldl_cons]
    rw [ih _ (fun h => hb (List.mem_cons_of_mem _ h)),
      processGroup_lookup_ne _ _ _ _ hba]

theorem foldl_processGroup_lookup_mem {B : Type} (rows : List Row) (w : Nat)
    (bl : List Nat) (st : OpState B) (b : Nat) (hnd : bl.Nodup) (hb : b ∈ bl) :
    lookup ((bl.foldl (fun s bin =>
        processGroup s bin (rows.filter (fun r => rowBin w r == bin))) st).execs) b
      = some (feedHolder (rows.filter (fun r => rowBin w r == b))
          ((lookup st.execs b).getD ⟨none, []⟩)) := by
  induction bl generalizing st with
  | nil => cases hb
  | cons a rest ih =>
    simp only [List.foldl_cons]
    rcases List.mem_cons.mp hb with rfl | hbr
    · have hbnr : b ∉ rest := (List.nodup_cons.mp hnd).1
      rw [foldl_processGroup_lookup_not_mem rows w rest _ b hbnr, processGroup_eq]
      exact lookup_setEntry_self _ _ _
    · have hab : b ≠ a := by
        intro h
        exact (List.nodup_cons.mp hnd).1 (h ▸ hbr)
      rw [ih _ ((List.nodup_cons.mp hnd).2) hbr,
        processGroup_lookup_ne _ _ _ _ hab]

theorem mem_batchBins (w : Nat) (rows : List Row) (b : Nat) :
    b ∈ batchBins w rows ↔ rows.filter (fun r => rowBin w r == b) ≠ [] := by
  rw [batchBins, mem_sortedDedup]
  constructor
  · intro h hnil
    rcases List.mem_map.mp h with ⟨r, hr, hrb⟩
    have hmem : r ∈ rows.filter (fun r => rowBin w r == b) :=
      List.mem_filter.mpr ⟨hr, by simp [hrb]⟩
    simp [hnil] at hmem
  · intro h
    rcases List.exists_mem_of_ne_nil _ h with ⟨r, hr⟩
    rcases List.mem_filter.mp hr with ⟨hr1, hr2⟩
    simp only [beq_iff_eq] at hr2
    exact List.mem_map.mpr ⟨r, hr1, hr2⟩

theorem batchBins_nodup (w : Nat) (rows : List Row) : (batchBins w rows).Nodup :=
  (pairwise_sortedDedup _).imp (fun h => Nat.ne_of_lt h)

theorem process_batch_lookup {B : Type} (cfg : TumblingConfig B) (st : OpState B)
    (rows : List Row) (b : Nat) :
    lookup (process_batch cfg st rows).execs b =
      (if rows.filter (fun r => rowBin cfg.width r == b) = [] then lookup st.execs b
       else some (feedHolder (rows.filter (fun r => rowBin cfg.width r == b))
          ((lookup st.execs b).getD ⟨none, []⟩))) := by
  by_cases hg : rows.filter (fun r => rowBin cfg.width r == b) = []
  · rw [if_pos hg]
    exact foldl_processGroup_lookup_not_mem rows cfg.width _ st b
      (fun h => ((mem_batchBins cfg.width rows b).mp h) hg)
  · rw [if_neg hg]
    exact foldl_processGroup_lookup_mem rows cfg.width _ st b
      (batchBins_nodup cfg.width rows) ((mem_batchBins cfg.width rows b).mpr hg)

theorem process_batches_lookup {B : Type} (cfg : TumblingConfig B) (st : OpState B)
    (bss : List (List Row)) (b : Nat) :
    lookup (process_batches cfg st bss).execs b =
      (if groupsFor cfg.width bss b = [] then lookup st.execs b
       else some (match (lookup st.execs b).getD ⟨none, []⟩ with
         | ⟨none, fin⟩ => ⟨some (groupsFor cfg.width bss b), fin⟩
         | ⟨some fed, fin⟩ => ⟨some (fed ++ groupsFor cfg.width bss b), fin⟩)) := by
  induction bss generalizing st with
  | nil => simp [process_batches, groupsFor]
  | cons rows rest ih =>
    rw [show process_batches cfg st (rows :: rest)
        = process_batches cfg (process_batch cfg st rows) rest from rfl, ih,
      process_batch_lookup]
    by_cases hg : rows.filter (fun r => rowBin cfg.width r == b) = []
    · have hgr : groupsFor cfg.width (rows :: rest) b = groupsFor cfg.width rest b := by
        simp [groupsFor, List.filter_cons, hg]
      rw [hgr]
      simp [hg]
    · have hgr : groupsFor cfg.width (rows :: rest) b
          = rows.filter (fun r => rowBin cfg.width r == b) :: groupsFor cfg.width rest b := by
        simp [groupsFor, List.filter_cons, hg]
      rw [hgr]
      by_cases hr : groupsFor cfg.width rest b = []
      · rw [hr]
        cases hx : (lookup st.execs b).getD ⟨none, []⟩ with
        | mk a f => cases a <;> simp [feedHolder, hg, hx]
      · cases hx : (lookup st.execs b).getD ⟨none, []⟩ with
        | mk a f => cases a <;> simp [feedHolder, hg, hr, hx]

/-! Preservation of well-formedness. -/

theorem WF_initState (B : Type) : WF (initState B) := by
  refine ⟨List.Pairwise.nil, List.Pairwise.nil, ?_⟩
  intro k
  constructor
  · intro h
    simp [initState] at h
  · rintro ⟨h, hl, _⟩
    simp [initState, lookup] at hl

theorem activeAt_setEntry_ne {B : Type} (execs : List (Nat × BinComputingHolder B))
    (bin k : Nat) (v : BinComputingHolder B) (hk : k ≠ bin) :
    activeAt (setEntry execs bin v) k ↔ activeAt execs k := by
  unfold activeAt
  rw [lookup_setEntry_ne _ _ _ _ hk]

theorem processGroup_WF {B : Type} (st : OpState B) (bin : Nat) (g : List Row)
    (h : WF st) : WF (processGroup st bin g) := by
  obtain ⟨hs, hex, hm⟩ := h
  rw [processGroup_eq]
  have hfeed : (feedHolder g ((lookup st.execs bin).getD ⟨none, []⟩)).active_exec.isSome
      = true := by
    cases hfx : ((lookup st.execs bin).getD ⟨none, []⟩).active_exec <;>
      simp [feedHolder, hfx]
  by_cases ha : ((lookup st.execs bin).getD ⟨none, []⟩).active_exec.isSome
  · rw [if_pos ha]
    obtain ⟨h0, hl0, ha0⟩ : ∃ h0, lookup st.execs bin = some h0
        ∧ h0.active_exec.isSome = true := by
      cases hl : lookup st.execs bin with
      | none => rw [hl] at ha; simp at ha
      | some h0 => rw [hl] at ha; exact ⟨h0, rfl, by simpa using ha⟩
    refine ⟨hs, pairwise_setEntry _ _ _ hex, ?_⟩
    intro k
    dsimp only
    by_cases hk : k = bin
    · subst hk
      constructor
      · intro _
        exact ⟨_, lookup_setEntry_self _ _ _, hfeed⟩
      · intro _
        exact (hm k).mpr ⟨h0, hl0, ha0⟩
    · rw [activeAt_setEntry_ne _ _ _ _ hk]
      exact hm k
  · rw [if_neg ha]
    refine ⟨pairwise_insertKey _ _ hs, pairwise_setEntry _ _ _ hex, ?_⟩
    intro k
    dsimp only
    by_cases hk : k = bin
    · subst hk
      constructor
      · intro _
        exact ⟨_, lookup_setEntry_self _ _ _, hfeed⟩
      · intro _
        exact (mem_insertKey k st.senders k).mpr (Or.inl rfl)
    · rw [activeAt_setEntry_ne _ _ _ _ hk, mem_insertKey bin st.senders k]
      constructor
      · rintro (rfl | hx)
        · exact absurd rfl hk
        · exact (hm k).mp hx
      · intro hx
        exact Or.inr ((hm k).mpr hx)

theorem foldl_processGroup_WF {B : Type} (gfun : Nat → List Row) (bl : List Nat)
    (st : OpState B) (h : WF st) :
    WF (bl.foldl (fun s bin => processGroup s bin (gfun bin)) st) := by
  induction bl generalizing st with
  | nil => exact h
  | cons a rest ih => exact ih _ (processGroup_WF _ _ _ h)

theorem process_batch_WF {B : Type} (cfg : TumblingConfig B) (st : OpState B)
    (rows : List Row) (h : WF st) : WF (process_batch cfg st rows) :=
  foldl_processGroup_WF (fun bin => rows.filter (fun r => rowBin cfg.width r == bin))
    (batchBins cfg.width rows) st h

theorem process_batches_WF {B : Type} (cfg : TumblingConfig B) (st : OpState B)
    (bss : List (List Row)) (h : WF st) : WF (process_batches cfg st bss) := by
  induction bss generalizing st with
  | nil => exact h
  | cons rows rest ih => exact ih _ (process_batch_WF cfg st rows h)

theorem closeLoop_WF {B : Type} (cfg : TumblingConfig B) (cb : Nat)
    (execs : List (Nat × BinComputingHolder B)) (s : List Nat)
    (h : WF ⟨s, execs⟩) :
    WF ⟨(closeLoop cfg cb execs s).2.1, (closeLoop cfg cb execs s).1⟩ := by
  induction execs generalizing s with
  | nil => simpa [closeLoop] using h
  | cons a rest ih =>
    obtain ⟨k, hh⟩ := a
    obtain ⟨hs, hex, hm⟩ := h
    rcases List.pairwise_cons.mp hex with ⟨hka, hrest⟩
    by_cases hk : k < cb
    · simp only [closeLoop, if_pos hk]
      apply ih
      have hlrest : lookup rest k = none := by
        apply lookup_eq_none
        intro v hv
        have := hka (k, v) hv
        simp at this
      refine ⟨?_, hrest, ?_⟩
      · cases hfx : hh.active_exec with
        | none => simpa [removeSender, hfx] using hs
        | some fed => simpa [removeSender, hfx] using pairwise_removeKey _ _ hs
      · intro j
        by_cases hjk : j = k
        · subst hjk
          constructor
          · intro hj
            cases hfx : hh.active_exec with
            | none =>
              have : j ∈ s := by simpa [removeSender, hfx] using hj
              have := (hm j).mp this
              obtain ⟨h2, hl2, ha2⟩ := this
              simp [lookup, hfx] at hl2
              rw [← hl2] at ha2
              simp [hfx] at ha2
            | some fed =>
              have : j ∈ removeKey s j := by simpa [removeSender, hfx] using hj
              rcases (mem_removeKey s j j hs).mp this with ⟨_, hne⟩
              exact absurd rfl hne
          · rintro ⟨h2, hl2, ha2⟩
            rw [hlrest] at hl2
            cases hl2
        · have hmem : j ∈ removeSender s k hh ↔ j ∈ s := by
            cases hfx : hh.active_exec with
            | none => simp [removeSender, hfx]
            | some fed =>
              simp only [removeSender, hfx]
              rw [mem_removeKey s k j hs]
              constructor
              · exact fun hx => hx.1
              · exact fun hx => ⟨hx, hjk⟩
          rw [hmem, hm j]
          have hlj : lookup ((k, hh) :: rest) j = lookup rest j := by
            simp [lookup, hjk]
          rw [activeAt, activeAt, hlj]
    · simpa [closeLoop, hk] using ⟨hs, hex, hm⟩

theorem handle_watermark_WF {B : Type} (cfg : TumblingConfig B) (st : OpState B)
    (w : Watermark) (h : WF st) : WF (handle_watermark cfg st w).1 := by
  cases w with
  | idle => simpa [handle_watermark] using h
  | eventTime t =>
    have hc := closeLoop_WF cfg (t / cfg.width) st.execs st.senders (by
      cases st
      exact h)
    simpa [handle_watermark] using hc

/-! Checkpoint lemmas. -/

theorem flatMap_congr {α β : Type} (l : List α) (f g : α → List β)
    (h : ∀ x ∈ l, f x = g x) : l.flatMap f = l.flatMap g := by
  induction l with
  | nil => rfl
  | cons a rest ih =>
    simp only [List.flatMap_cons, h a (List.mem_cons_self a rest),
      ih (fun x hx => h x (List.mem_cons_of_mem _ hx))]

theorem checkpointKey_some {B : Type} (cfg : TumblingConfig B)
    (execs : List (Nat × BinComputingHolder B)) (store : Store B) (key : Nat)
    (h : BinComputingHolder B) (fed : List (List Row))
    (hl : lookup execs key = some h) (ha : h.active_exec = some fed) :
    checkpointKey cfg (some (execs, store)) key =
      some (setEntry execs key ⟨none, h.finished_batches ++ cfg.partial_aggregation_plan fed⟩,
        store ++ (cfg.partial_aggregation_plan fed).map
          (fun b => ⟨key * cfg.width, ((key * cfg.width : Nat) : Int), b⟩)) := by
  simp [checkpointKey, hl, ha]

theorem foldl_checkpointKey_spec {B : Type} (cfg : TumblingConfig B) (keys : List Nat)
    (execs : List (Nat × BinComputingHolder B)) (store : Store B)
    (hex : execs.Pairwise (fun a b => a.1 < b.1))
    (hk : ∀ k ∈ keys, ∃ h fed, lookup execs k = some h ∧ h.active_exec = some fed)
    (hnd : keys.Nodup) :
    ∃ execs2,
      keys.foldl (checkpointKey cfg) (some (execs, store))
        = some (execs2, store ++ keys.flatMap (fun k =>
            (cfg.partial_aggregation_plan (fedOf execs k)).map
              (fun b => ⟨k * cfg.width, ((k * cfg.width : Nat) : Int), b⟩))) ∧
      execs2.Pairwise (fun a b => a.1 < b.1) ∧
      (∀ k ∈ keys, lookup execs2 k = some ⟨none,
          (holderOf execs k).finished_batches
            ++ cfg.partial_aggregation_plan (fedOf execs k)⟩) ∧
      (∀ k, k ∉ keys → lookup execs2 k = lookup execs k) := by
  induction keys generalizing execs store with
  | nil => exact ⟨execs, by simp, hex, by simp, fun k _ => rfl⟩
  | cons k0 rest ih =>
    obtain ⟨h0, fed0, hl0, ha0⟩ := hk k0 (List.mem_cons_self _ _)
    have hfed0 : fedOf execs k0 = fed0 := by simp [fedOf, holderOf, hl0, ha0]
    have hhol0 : holderOf execs k0 = h0 := by simp [holderOf, hl0]
    have hk0nr : k0 ∉ rest := (List.nodup_cons.mp hnd).1
    have hndr : rest.Nodup := (List.nodup_cons.mp hnd).2
    have hlook1 : ∀ k, k ≠ k0 →
        lookup (setEntry execs k0
          (⟨none, h0.finished_batches ++ cfg.partial_aggregation_plan fed0⟩
            : BinComputingHolder B)) k
          = lookup execs k :=
      fun k hkk => lookup_setEntry_ne _ _ _ _ hkk
    have hhol1 : ∀ k, k ≠ k0 →
        holderOf (setEntry execs k0
          (⟨none, h0.finished_batches ++ cfg.partial_aggregation_plan fed0⟩
            : BinComputingHolder B)) k
          = holderOf execs k :=
      fun k hkk => by simp [holderOf, hlook1 k hkk]
    have hfed1 : ∀ k, k ≠ k0 →
        fedOf (setEntry execs k0
          (⟨none, h0.finished_batches ++ cfg.partial_aggregation_plan fed0⟩
            : BinComputingHolder B)) k
          = fedOf execs k :=
      fun k hkk => by simp [fedOf, hhol1 k hkk]
    obtain ⟨execs2, hfold, hex2, hin, hout⟩ := ih
      (setEntry execs k0
        (⟨none, h0.finished_batches ++ cfg.partial_aggregation_plan fed0⟩
          : BinComputingHolder B))
      (store ++ (cfg.partial_aggregation_plan fed0).map
        (fun b => (⟨k0 * cfg.width, ((k0 * cfg.width : Nat) : Int), b⟩ : StateBatch B)))
      (pairwise_setEntry _ _ _ hex)
      (by
        intro k hkr
        have hkk : k ≠ k0 := fun hx => hk0nr (hx ▸ hkr)
        rw [hlook1 k hkk]
        exact hk k (List.mem_cons_of_mem _ hkr))
      hndr
    refine ⟨execs2, ?_, hex2, ?_, ?_⟩
    · rw [List.foldl_cons, checkpointKey_some cfg execs store k0 h0 fed0 hl0 ha0, hfold]
      have hmap : rest.flatMap (fun k =>
            (cfg.partial_aggregation_plan (fedOf (setEntry execs k0
              (⟨none, h0.finished_batches ++ cfg.partial_aggregation_plan fed0⟩
                : BinComputingHolder B)) k)).map
              (fun b => (⟨k * cfg.width, ((k * cfg.width : Nat) : Int), b⟩ : StateBatch B)))
          = rest.flatMap (fun k =>
            (cfg.partial_aggregation_plan (fedOf execs k)).map
              (fun b => (⟨k * cfg.width, ((k * cfg.width : Nat) : Int), b⟩ : StateBatch B))) := by
        apply flatMap_congr
        intro k hkr
        have hkk : k ≠ k0 := fun hx => hk0nr (hx ▸ hkr)
        rw [hfed1 k hkk]
      rw [hmap, List.flatMap_cons, hfed0, List.append_assoc]
    · intro k hkmem
      rcases List.mem_cons.mp hkmem with rfl | hkr
      · rw [hout k hk0nr, lookup_setEntry_self, hhol0, hfed0]
      · have hkk : k ≠ k0 := fun hx => hk0nr (hx ▸ hkr)
        rw [hin k hkr, hhol1 k hkk, hfed1 k hkk]
    · intro k hknot
      have hkk : k ≠ k0 := fun hx => hknot (hx ▸ List.mem_cons_self _ _)
      rw [hout k (fun hx => hknot (List.mem_cons_of_mem _ hx)), hlook1 k hkk]

/-! Recovery lemmas. -/

theorem foldl_addStoredPair_lookup {B : Type} (w : Nat) (pairs : List (Nat × List B))
    (execs : List (Nat × BinComputingHolder B)) (b : Nat) :
    lookup (pairs.foldl (addStoredPair w) execs) b =
      (if (pairs.filter (fun p => p.1 / w == b)).isEmpty = true then lookup execs b
       else some ⟨(holderOf execs b).active_exec,
         (holderOf execs b).finished_batches
           ++ (pairs.filter (fun p => p.1 / w == b)).flatMap (fun p => p.2)⟩) := by
  induction pairs generalizing execs with
  | nil => simp
  | cons p rest ih =>
    by_cases hb : p.1 / w = b
    · have hstep : addStoredPair w execs p
          = setEntry execs b (⟨(holderOf execs b).active_exec,
              (holderOf execs b).finished_batches ++ p.2⟩ : BinComputingHolder B) := by
        simp [addStoredPair, holderOf, hb]
      have hnew : holderOf (addStoredPair w execs p) b
          = (⟨(holderOf execs b).active_exec,
             (holderOf execs b).finished_batches ++ p.2⟩ : BinComputingHolder B) := by
        rw [hstep]
        simp [holderOf, lookup_setEntry_self]
      simp only [List.foldl_cons, List.filter_cons]
      rw [ih]
      by_cases hrest : (rest.filter (fun p => p.1 / w == b)) = []
      · simp only [hrest, hstep]
        rw [lookup_setEntry_self]
        simp [hb, holderOf]
      · have hrb : (rest.filter (fun p => p.1 / w == b)).isEmpty = false := by
          cases hx : rest.filter (fun p => p.1 / w == b) with
          | nil => exact absurd hx hrest
          | cons y ys => rfl
        simp only [hrb, if_neg (by simp : ¬ (false = true)), hnew]
        simp [hb, hrb, List.flatMap_cons]
    · have hstep : lookup (addStoredPair w execs p) b = lookup execs b := by
        simp only [addStoredPair]
        exact lookup_setEntry_ne _ _ _ _ (fun hx => hb hx.symm)
      have hhol : holderOf (addStoredPair w execs p) b = holderOf execs b := by
        simp [holderOf, hstep]
      simp only [List.foldl_cons, List.filter_cons]
      rw [ih, hstep, hhol]
      have hbeq : (p.1 / w == b) = false := by
        simp [hb]
      rw [hbeq]
      simp

theorem on_start_lookup {B : Type} (cfg : TumblingConfig B) (store : Store B)
    (wm : Option Nat) (b : Nat) :
    lookup (on_start cfg store wm).execs b =
      (if ((all_batches_for_watermark store wm).filter
            (fun p => p.1 / cfg.width == b)).isEmpty = true then none
       else some ⟨none, ((all_batches_for_watermark store wm).filter
            (fun p => p.1 / cfg.width == b)).flatMap (fun p => p.2)⟩) := by
  have h := foldl_addStoredPair_lookup cfg.width (all_batches_for_watermark store wm) [] b
  simp only [on_start]
  rw [h]
  simp [holderOf, lookup]

theorem handle_checkpoint_spec {B : Type} (cfg : TumblingConfig B) (st : OpState B)
    (store : Store B) (wm : Option Nat) (h : WF st) :
    ∃ execs2,
      handle_checkpoint cfg st store wm = some (⟨[], execs2⟩,
        store ++ st.senders.flatMap (fun k =>
          (cfg.partial_aggregation_plan (fedOf st.execs k)).map
            (fun b => (⟨k * cfg.width, ((k * cfg.width : Nat) : Int), b⟩ : StateBatch B))),
        wm) ∧
      execs2.Pairwise (fun a b => a.1 < b.1) ∧
      (∀ k ∈ st.senders, lookup execs2 k = some ⟨none,
          (holderOf st.execs k).finished_batches
            ++ cfg.partial_aggregation_plan (fedOf st.execs k)⟩) ∧
      (∀ k, k ∉ st.senders → lookup execs2 k = lookup st.execs k) := by
  obtain ⟨hs, hex, hm⟩ := h
  have hk : ∀ k ∈ st.senders, ∃ h2 fed, lookup st.execs k = some h2
      ∧ h2.active_exec = some fed := by
    intro k hks
    obtain ⟨h2, hl2, ha2⟩ := (hm k).mp hks
    cases hf : h2.active_exec with
    | none => rw [hf] at ha2; simp at ha2
    | some fed => exact ⟨h2, fed, hl2, hf⟩
  obtain ⟨execs2, hfold, hex2, hin, hout⟩ :=
    foldl_checkpointKey_spec cfg st.senders st.execs store hex hk
      (hs.imp (fun h => Nat.ne_of_lt h))
  refine ⟨execs2, ?_, hex2, hin, hout⟩
  simp [handle_checkpoint, hfold]

theorem handle_checkpoint_WF {B : Type} (cfg : TumblingConfig B) (st : OpState B)
    (store : Store B) (wm : Option Nat) (h : WF st) :
    ∃ st2 store2 f2, handle_checkpoint cfg st store wm = some (st2, store2, f2)
      ∧ WF st2 := by
  obtain ⟨execs2, heq, hex2, hin, hout⟩ := handle_checkpoint_spec cfg st store wm h
  obtain ⟨hs, hex, hm⟩ := h
  refine ⟨_, _, _, heq, List.Pairwise.nil, hex2, ?_⟩
  intro k
  dsimp only
  constructor
  · intro hx
    simp at hx
  · rintro ⟨h2, hl2, ha2⟩
    by_cases hks : k ∈ st.senders
    · rw [hin k hks] at hl2
      cases hl2
      simp at ha2
    · rw [hout k hks] at hl2
      exact (hks ((hm k).mpr ⟨h2, hl2, ha2⟩)).elim

theorem foldl_addStoredPair_pairwise {B : Type} (w : Nat) (pairs : List (Nat × List B))
    (execs : List (Nat × BinComputingHolder B))
    (hex : execs.Pairwise (fun a b => a.1 < b.1)) :
    (pairs.foldl (addStoredPair w) execs).Pairwise (fun a b => a.1 < b.1) := by
  induction pairs generalizing execs with
  | nil => exact hex
  | cons p rest ih =>
    apply ih
    simp only [addStoredPair]
    exact pairwise_setEntry _ _ _ hex

theorem on_start_WF {B : Type} (cfg : TumblingConfig B) (store : Store B)
    (wm : Option Nat) : WF (on_start cfg store wm) := by
  refine ⟨List.Pairwise.nil, foldl_addStoredPair_pairwise _ _ _ List.Pairwise.nil, ?_⟩
  intro k
  constructor
  · intro hk
    simp [on_start] at hk
  · rintro ⟨h2, hl2, ha2⟩
    have hc := on_start_lookup cfg store wm k
    rw [hc] at hl2
    by_cases he : ((all_batches_for_watermark store wm).filter
        (fun p => p.1 / cfg.width == k)).isEmpty = true
    · rw [if_pos he] at hl2
      cases hl2
    · rw [if_neg he] at hl2
      cases hl2
      simp at ha2

/-! Window-metadata lemmas. -/

theorem insertAtIdx_length {α : Type} (n : Nat) (a : α) (l : List α) :
    (insertAtIdx n a l).length = l.length + 1 := by
  induction n generalizing l with
  | zero => simp [insertAtIdx]
  | succ n ih =>
    cases l with
    | nil => simp [insertAtIdx]
    | cons x xs => simp [insertAtIdx, ih]

theorem insertAtIdx_getElem_self {α : Type} (n : Nat) (a : α) (l : List α)
    (hn : n ≤ l.length) : (insertAtIdx n a l)[n]? = some a := by
  induction n generalizing l with
  | zero => simp [insertAtIdx]
  | succ n ih =>
    cases l with
    | nil => simp at hn
    | cons x xs =>
      simp only [insertAtIdx, List.getElem?_cons_succ]
      exact ih xs (Nat.le_of_succ_le_succ hn)

theorem insertAtIdx_getElem_shift {α : Type} (n i : Nat) (a : α) (l : List α)
    (hn : n ≤ i) (hi : i < l.length) : (insertAtIdx n a l)[i + 1]? = l[i]? := by
  induction n generalizing l i with
  | zero => simp [insertAtIdx]
  | succ n ih =>
    cases l with
    | nil => simp at hi
    | cons x xs =>
      cases i with
      | zero => omega
      | succ i =>
        simp only [insertAtIdx, List.getElem?_cons_succ]
        exact ih i xs (Nat.le_of_succ_le_succ hn) (Nat.lt_of_succ_lt_succ hi)

theorem concat_getElem_last {α : Type} (l : List α) (a : α) :
    (l ++ [a])[l.length]? = some a := by
  induction l with
  | nil => rfl
  | cons x xs ih =>
    simp only [List.cons_append, List.length_cons, List.getElem?_cons_succ]
    exact ih

/-! Emission filtering lemmas (used for the round-trip claim). -/

theorem filter_flatMap {α β : Type} (l : List α) (f : α → List β) (p : β → Bool) :
    (l.flatMap f).filter p = l.flatMap (fun x => (f x).filter p) := by
  induction l with
  | nil => rfl
  | cons a rest ih => simp [List.flatMap_cons, List.filter_append, ih]

theorem flatMap_eq_nil_of {α β : Type} (l : List α) (f : α → List β)
    (h : ∀ x ∈ l, f x = []) : l.flatMap f = [] := by
  induction l with
  | nil => rfl
  | cons a rest ih =>
    simp only [List.flatMap_cons, h a (List.mem_cons_self a rest), List.nil_append]
    exact ih (fun x hx => h x (List.mem_cons_of_mem _ hx))

theorem lookup_none_not_mem {α : Type} (l : List (Nat × α)) (k : Nat)
    (h : lookup l k = none) : ∀ v, (k, v) ∉ l := by
  induction l with
  | nil => simp
  | cons a rest ih =>
    by_cases hk : k = a.1
    · simp [lookup, hk] at h
    · intro v hv
      rcases List.mem_cons.mp hv with hv | hv
      · exact hk (by rw [← hv])
      · simp only [lookup, if_neg hk] at h
        exact ih h v hv

theorem filter_emitsOfBin {B : Type} (cfg : TumblingConfig B) (k b : Nat)
    (h : BinComputingHolder B) :
    (emitsOfBin cfg k h).filter (fun e => e.bin == b)
      = if k = b then emitsOfBin cfg k h else [] := by
  by_cases hkb : k = b
  · subst hkb
    rw [if_pos rfl]
    apply List.filter_eq_self.mpr
    intro e he
    simp [mem_emitsOfBin_bin cfg k h e he]
  · rw [if_neg hkb]
    apply List.filter_eq_nil_iff.mpr
    intro e he
    simp [mem_emitsOfBin_bin cfg k h e he, hkb]

theorem flatMap_if_single {B : Type} (cfg : TumblingConfig B)
    (l : List (Nat × BinComputingHolder B)) (b : Nat) (h : BinComputingHolder B)
    (hl : l.Pairwise (fun a b => a.1 < b.1)) (hm : (b, h) ∈ l) :
    l.flatMap (fun e => if e.1 = b then emitsOfBin cfg e.1 e.2 else [])
      = emitsOfBin cfg b h := by
  induction l with
  | nil => cases hm
  | cons a rest ih =>
    rcases List.pairwise_cons.mp hl with ⟨ha, hrest⟩
    rcases List.mem_cons.mp hm with heq | hm2
    · subst heq
      have hnil : rest.flatMap
          (fun e => if e.1 = b then emitsOfBin cfg e.1 e.2 else []) = [] := by
        apply flatMap_eq_nil_of
        intro x hx
        have hbx : b < x.1 := ha x hx
        rw [if_neg (by omega)]
      rw [List.flatMap_cons, hnil, List.append_nil]
      simp
    · have hab : a.1 ≠ b := by
        intro hx
        have hlt := ha (b, h) hm2
        rw [hx] at hlt
        exact absurd hlt (lt_irrefl b)
      rw [List.flatMap_cons, if_neg hab, List.nil_append]
      exact ih hrest hm2

theorem takeWhile_lt_eq_filter_fst {α : Type} (cb : Nat) (l : List (Nat × α))
    (hs : l.Pairwise (fun a b => a.1 < b.1)) :
    l.takeWhile (fun e => decide (e.1 < cb)) = l.filter (fun e => decide (e.1 < cb)) :=
  takeWhile_lt_eq_filter (fun e => e.1) cb l hs

theorem handle_watermark_emits_filter {B : Type} (cfg : TumblingConfig B)
    (st : OpState B) (t b : Nat) (hs : st.execs.Pairwise (fun a b => a.1 < b.1))
    (hb : b < t / cfg.width) :
    ((handle_watermark cfg st (.eventTime t)).2.1).filter (fun e => e.bin == b)
      = (match lookup st.execs b with
         | some h => emitsOfBin cfg b h
         | none => []) := by
  simp only [handle_watermark_eventTime]
  rw [filter_flatMap]
  rw [flatMap_congr _ _
    (fun e => if e.1 = b then emitsOfBin cfg e.1 e.2 else [])
    (fun e _ => filter_emitsOfBin cfg e.1 b e.2)]
  rw [takeWhile_lt_eq_filter_fst _ _ hs]
  cases hlook : lookup st.execs b with
  | some h =>
    have hmem : (b, h) ∈ st.execs := lookup_mem _ _ _ hlook
    have hmemf : (b, h) ∈ st.execs.filter (fun e => decide (e.1 < t / cfg.width)) :=
      List.mem_filter.mpr ⟨hmem, by simpa using hb⟩
    exact flatMap_if_single cfg _ b h (hs.sublist (List.filter_sublist _)) hmemf
  | none =>
    apply flatMap_eq_nil_of
    intro x hx
    have hxe : x ∈ st.execs := (List.mem_filter.mp hx).1
    by_cases hxb : x.1 = b
    · exfalso
      apply lookup_none_not_mem st.execs b hlook x.2
      rw [show (b, x.2) = x by rw [← hxb]]
      exact hxe
    · rw [if_neg hxb]

/-! Store-key lemmas (used for the round-trip claim). -/

theorem filter_unique {l : List Nat} {p : Nat → Bool} {t0 : Nat} (hnd : l.Nodup)
    (hu : ∀ x ∈ l, p x = true → x = t0) :
    l.filter p = if t0 ∈ l ∧ p t0 = true then [t0] else [] := by
  induction l with
  | nil => simp
  | cons a rest ih =>
    rcases List.nodup_cons.mp hnd with ⟨hanr, hndr⟩
    have ihr := ih hndr (fun x hx hp => hu x (List.mem_cons_of_mem _ hx) hp)
    by_cases hpa : p a = true
    · have hat : a = t0 := hu a (List.mem_cons_self _ _) hpa
      subst hat
      have hrest : rest.filter p = [] := by
        rw [ihr]
        simp [hanr]
      rw [List.filter_cons, if_pos hpa, hrest]
      simp [hpa]
    · rw [List.filter_cons, if_neg hpa, ihr]
      by_cases hpt : p t0 = true
      · have hta : t0 ≠ a := fun hx => hpa (hx ▸ hpt)
        simp [List.mem_cons, hpt, hta]
      · simp [hpt]

theorem flatMap_filter_key {B : Type} (ks : List Nat) (w : Nat) (hw : 0 < w)
    (planf : Nat → List B) (b : Nat) (hnd : ks.Nodup) :
    ((ks.flatMap (fun k => (planf k).map
        (fun x => (⟨k * w, ((k * w : Nat) : Int), x⟩ : StateBatch B)))).filter
      (fun s => s.key_time == b * w))
    = (if b ∈ ks then (planf b).map
        (fun x => (⟨b * w, ((b * w : Nat) : Int), x⟩ : StateBatch B)) else []) := by
  induction ks with
  | nil => simp
  | cons k rest ih =>
    rcases List.nodup_cons.mp hnd with ⟨hknr, hndr⟩
    rw [List.flatMap_cons, List.filter_append, ih hndr]
    by_cases hkb : k = b
    · subst hkb
      have hself : ((planf k).map
            (fun x => (⟨k * w, ((k * w : Nat) : Int), x⟩ : StateBatch B))).filter
          (fun s => s.key_time == k * w)
          = (planf k).map
            (fun x => (⟨k * w, ((k * w : Nat) : Int), x⟩ : StateBatch B)) := by
        apply List.filter_eq_self.mpr
        intro s hsm
        rcases List.mem_map.mp hsm with ⟨x, _, rfl⟩
        simp
      rw [hself]
      simp [hknr]
    · have hclr : ((planf k).map
            (fun x => (⟨k * w, ((k * w : Nat) : Int), x⟩ : StateBatch B))).filter
          (fun s => s.key_time == b * w) = [] := by
        apply List.filter_eq_nil_iff.mpr
        intro s hsm
        rcases List.mem_map.mp hsm with ⟨x, _, rfl⟩
        simp only [beq_iff_eq]
        intro heq
        exact hkb (Nat.eq_of_mul_eq_mul_right hw heq)
      rw [hclr, List.nil_append]
      have hbk : ¬ b = k := fun h => hkb h.symm
      simp [List.mem_cons, hbk]

theorem on_start_lookup_single_key {B : Type} (cfg : TumblingConfig B) (store : Store B)
    (wm : Option Nat) (b t0 : Nat) (ht0 : t0 / cfg.width = b)
    (hall : ∀ s ∈ store, s.key_time / cfg.width = b → s.key_time = t0) :
    lookup (on_start cfg store wm).execs b
      = (if (store.filter (fun s => s.key_time == t0)).isEmpty = true then none
         else some ⟨none, (store.filter (fun s => s.key_time == t0)).map
            (fun s => s.batch)⟩) := by
  rw [on_start_lookup]
  have hkeysnd : (sortedDedup (store.map (fun s => s.key_time))).Nodup :=
    (pairwise_sortedDedup _).imp (fun h => Nat.ne_of_lt h)
  have hu : ∀ x ∈ sortedDedup (store.map (fun s => s.key_time)),
      (x / cfg.width == b) = true → x = t0 := by
    intro x hx hxb
    rcases List.mem_map.mp ((mem_sortedDedup _ _).mp hx) with ⟨s, hsm, hsx⟩
    simp only [beq_iff_eq] at hxb
    rw [← hsx]
    exact hall s hsm (by rw [hsx]; exact hxb)
  have hpairs : (all_batches_for_watermark store wm).filter
        (fun p => p.1 / cfg.width == b)
      = ((sortedDedup (store.map (fun s => s.key_time))).filter
          (fun t => t / cfg.width == b)).map
          (fun t => (t, (store.filter (fun s => s.key_time == t)).map
            (fun s => s.batch))) := by
    rw [all_batches_for_watermark, List.filter_map]
    rfl
  rw [hpairs, filter_unique hkeysnd hu]
  by_cases hmem : t0 ∈ sortedDedup (store.map (fun s => s.key_time))
  · have hcond : t0 ∈ sortedDedup (store.map (fun s => s.key_time))
        ∧ (t0 / cfg.width == b) = true := ⟨hmem, by simp [ht0]⟩
    rw [if_pos hcond]
    have hne2 : store.filter (fun s => s.key_time == t0) ≠ [] := by
      rcases List.mem_map.mp ((mem_sortedDedup _ _).mp hmem) with ⟨s, hsm, hsx⟩
      intro hnil
      have hsf : s ∈ store.filter (fun s => s.key_time == t0) :=
        List.mem_filter.mpr ⟨hsm, by simp [hsx]⟩
      rw [hnil] at hsf
      cases hsf
    have hie : (store.filter (fun s => s.key_time == t0)).isEmpty = false := by
      cases hx : store.filter (fun s => s.key_time == t0) with
      | nil => exact absurd hx hne2
      | cons y ys => rfl
    simp [hie]
  · have hcond : ¬ (t0 ∈ sortedDedup (store.map (fun s => s.key_time))
        ∧ (t0 / cfg.width == b) = true) := fun hx => hmem hx.1
    rw [if_neg hcond]
    have hnilf : store.filter (fun s => s.key_time == t0) = [] := by
      apply List.filter_eq_nil_iff.mpr
      intro s hsm
      simp only [beq_iff_eq]
      intro hst
      exact hmem ((mem_sortedDedup _ _).mpr (List.mem_map.mpr ⟨s, hsm, hst⟩))
    rw [hnilf]
    simp

theorem groupsFor_append (w : Nat) (bs1 bs2 : List (List Row)) (b : Nat) :
    groupsFor w (bs1 ++ bs2) b = groupsFor w bs1 b ++ groupsFor w bs2 b := by
  simp [groupsFor, List.map_append, List.filter_append]

/-! Claim theorems (first group: the watermark finalizer). -/

/-- C1: on an event-time watermark `W`, `handle_watermark` computes
`close_bin = W_nanos / width_nanos` and repeatedly pops the registry's minimum bin
while it is strictly below `close_bin`, finalizing and emitting the popped bins in
increasing bin-id order; it stops at the first bin whose id is at or above
`close_bin`, leaving that bin and all larger bins in the registry. -/
theorem c1_watermark_pops_min_bins {B : Type} (cfg : TumblingConfig B) (st : OpState B)
    (t : Nat) (hs : st.execs.Pairwise (fun a b => a.1 < b.1)) :
    (handle_watermark cfg st (.eventTime t)).1.execs
        = st.execs.dropWhile (fun e => decide (e.1 < t / cfg.width)) ∧
    (handle_watermark cfg st (.eventTime t)).2.1
        = (st.execs.takeWhile (fun e => decide (e.1 < t / cfg.width))).flatMap
            (fun e => emitsOfBin cfg e.1 e.2) ∧
    ((handle_watermark cfg st (.eventTime t)).2.1.map Emit.bin).Pairwise (fun a b => a ≤ b) ∧
    (∀ e ∈ (handle_watermark cfg st (.eventTime t)).1.execs, t / cfg.width ≤ e.1) := by
  simp only [handle_watermark_eventTime]
  refine ⟨by simp, by simp, ?_, ?_⟩
  · exact emits_bins_pairwise cfg _ (hs.sublist (List.takeWhile_sublist _))
  · exact dropWhile_lt_ge (fun e => e.1) (t / cfg.width) st.execs hs

theorem c1_watermark_pops_min_bins_witness :
    (witnessState.execs.Pairwise (fun a b => a.1 < b.1)) ∧
    (handle_watermark testCfg witnessState (.eventTime 25)).1.execs
        = witnessState.execs.dropWhile (fun e => decide (e.1 < 25 / testCfg.width)) :=
  ⟨by decide, (c1_watermark_pops_min_bins testCfg witnessState 25 (by decide)).1⟩

/-- C6: a bin never finalizes while its window end `(bin + 1) * width` exceeds the
event-time watermark `t`: every batch emitted by `handle_watermark` and every registry
entry it removes satisfies `(bin + 1) * width ≤ t`. -/
theorem c6_finalize_only_behind_watermark {B : Type} (cfg : TumblingConfig B)
    (st : OpState B) (t : Nat) :
    (∀ e ∈ (handle_watermark cfg st (.eventTime t)).2.1, (e.bin + 1) * cfg.width ≤ t) ∧
    (∀ kh ∈ st.execs, kh ∉ (handle_watermark cfg st (.eventTime t)).1.execs →
        (kh.1 + 1) * cfg.width ≤ t) := by
  simp only [handle_watermark_eventTime]
  constructor
  · intro e he
    rcases List.mem_flatMap.mp he with ⟨x, hx, hex⟩
    have hb := mem_emitsOfBin_bin cfg x.1 x.2 e hex
    have hlt := List.mem_takeWhile_imp hx
    simp only [decide_eq_true_eq] at hlt
    exact hb ▸ bin_lt_close_imp hlt
  · intro kh hkh hnot
    have hsplit := List.takeWhile_append_dropWhile
      (fun e => decide (e.1 < t / cfg.width)) st.execs
    have hmem : kh ∈ st.execs.takeWhile (fun e => decide (e.1 < t / cfg.width)) := by
      rcases List.mem_append.mp (by rw [hsplit]; exact hkh) with h | h
      · exact h
      · exact absurd h hnot
    have hlt := List.mem_takeWhile_imp hmem
    simp only [decide_eq_true_eq] at hlt
    exact bin_lt_close_imp hlt

theorem c6_finalize_only_behind_watermark_witness :
    ((⟨0, 5⟩ : Emit Int) ∈ (handle_watermark testCfg witnessState (.eventTime 25)).2.1 ∧
      (0 + 1) * testCfg.width ≤ 25) :=
  ⟨by decide,
   (c6_finalize_only_behind_watermark testCfg witnessState 25).1 ⟨0, 5⟩ (by decide)⟩

/-- C7: every watermark received by `handle_watermark` is forwarded downstream
unchanged after the closing loop, and an idle watermark closes no bin, changes no
state, and is passed through unchanged. -/
theorem c7_watermark_forwarded_unchanged {B : Type} (cfg : TumblingConfig B)
    (st : OpState B) (w : Watermark) :
    (handle_watermark cfg st w).2.2 = w ∧
    handle_watermark cfg st Watermark.idle = (st, [], Watermark.idle) := by
  constructor
  · cases w <;> simp [handle_watermark]
  · rfl

/-- C3: on a checkpoint barrier, for every bin with a registered sender the operator
removes the registration (the sender map ends empty), drains that bin's live partial
execution to completion, inserts every drained batch into the durable table keyed by
the bin's start time `bin * width` with an attached synthetic timestamp column equal
to that start time, retains the drained batches in the bin's buffered set, leaves all
other bins untouched, and afterwards flushes the table at the current watermark. -/
theorem c3_checkpoint_flushes_active_bins {B : Type} (cfg : TumblingConfig B)
    (st : OpState B) (store : Store B) (wm : Option Nat) (h : WF st) :
    ∃ execs2,
      handle_checkpoint cfg st store wm = some (⟨[], execs2⟩,
        store ++ st.senders.flatMap (fun k =>
          (cfg.partial_aggregation_plan (fedOf st.execs k)).map
            (fun b => (⟨k * cfg.width, ((k * cfg.width : Nat) : Int), b⟩ : StateBatch B))),
        wm) ∧
      (∀ k ∈ st.senders, lookup execs2 k = some ⟨none,
          (holderOf st.execs k).finished_batches
            ++ cfg.partial_aggregation_plan (fedOf st.execs k)⟩) ∧
      (∀ k, k ∉ st.senders → lookup execs2 k = lookup st.execs k) := by
  obtain ⟨execs2, heq, _, hin, hout⟩ := handle_checkpoint_spec cfg st store wm h
  exact ⟨execs2, heq, hin, hout⟩

theorem c3_checkpoint_flushes_active_bins_witness :
    ∃ execs2,
      handle_checkpoint testCfg (process_batch testCfg (initState Int) [(5, 1)]) [] none
        = some (⟨[], execs2⟩,
          [] ++ (process_batch testCfg (initState Int) [(5, 1)]).senders.flatMap (fun k =>
            (testCfg.partial_aggregation_plan
                (fedOf (process_batch testCfg (initState Int) [(5, 1)]).execs k)).map
              (fun b => (⟨k * testCfg.width, ((k * testCfg.width : Nat) : Int), b⟩
                : StateBatch Int))),
          none) ∧
      (∀ k ∈ (process_batch testCfg (initState Int) [(5, 1)]).senders,
        lookup execs2 k = some ⟨none,
          (holderOf (process_batch testCfg (initState Int) [(5, 1)]).execs k).finished_batches
            ++ testCfg.partial_aggregation_plan
              (fedOf (process_batch testCfg (initState Int) [(5, 1)]).execs k)⟩) ∧
      (∀ k, k ∉ (process_batch testCfg (initState Int) [(5, 1)]).senders →
        lookup execs2 k = lookup (process_batch testCfg (initState Int) [(5, 1)]).execs k) :=
  c3_checkpoint_flushes_active_bins testCfg (process_batch testCfg (initState Int) [(5, 1)])
    [] none (process_batch_WF testCfg (initState Int) [(5, 1)] (WF_initState Int))

/-- C4: on operator start, recovery queries the durable store for the persisted
(timestamp, batches) pairs visible at the last watermark, converts each stored
bin-start timestamp back to a bin id via `timestamp_nanos / width_nanos`, and
reconstructs exactly those registry entries, with buffered partial batches
pre-populated from the store and no live feed channel or execution. -/
theorem c4_recovery_rebuilds_bins {B : Type} (cfg : TumblingConfig B) (store : Store B)
    (wm : Option Nat) :
    (on_start cfg store wm).senders = [] ∧
    ∀ b, lookup (on_start cfg store wm).execs b =
      (if ((all_batches_for_watermark store wm).filter
            (fun p => p.1 / cfg.width == b)).isEmpty = true then none
       else some ⟨none, ((all_batches_for_watermark store wm).filter
            (fun p => p.1 / cfg.width == b)).flatMap (fun p => p.2)⟩) :=
  ⟨rfl, fun b => on_start_lookup cfg store wm b⟩

/-- C10: at every quiescent point the sender map's key set equals the set of bins
whose registry entry holds a live partial execution: this invariant (with the maps'
key-sortedness) is established by `on_start` and preserved by `process_batch`,
`handle_watermark`, and `handle_checkpoint`, which also always succeeds (hits none of
its `unwrap`/`expect` panics) on a well-formed state. -/
theorem c10_senders_match_live_execs {B : Type} (cfg : TumblingConfig B) :
    (∀ (store : Store B) (wm : Option Nat), WF (on_start cfg store wm)) ∧
    (∀ (st : OpState B) (rows : List Row), WF st → WF (process_batch cfg st rows)) ∧
    (∀ (st : OpState B) (w : Watermark), WF st → WF (handle_watermark cfg st w).1) ∧
    (∀ (st : OpState B) (store : Store B) (wm : Option Nat), WF st →
      ∃ st2 store2 f2, handle_checkpoint cfg st store wm = some (st2, store2, f2)
        ∧ WF st2) :=
  ⟨fun store wm => on_start_WF cfg store wm,
   fun st rows h => process_batch_WF cfg st rows h,
   fun st w h => handle_watermark_WF cfg st w h,
   fun st store wm h => handle_checkpoint_WF cfg st store wm h⟩

theorem c10_senders_match_live_execs_witness :
    WF (process_batch testCfg (initState Int) [(5, 1)]) :=
  (c10_senders_match_live_execs testCfg).2.1 (initState Int) [(5, 1)] (WF_initState Int)

/-- C2: every batch emitted when a bin finalizes carries, at the configured window
column index, the window struct column `(window_start, window_end)` with
`window_start = bin * width` and `window_end = bin * width + width`, and the
synthesized `"_timestamp"` column, in last position, equal to `window_end - 1`
nanoseconds; the window field is inserted at the same index among the fields. -/
theorem c2_window_metadata_attached {B : Type} (cfg : TumblingConfig B) (st : OpState B)
    (t : Nat) (hwi : cfg.window_index ≤ cfg.out_cols)
    (hf : cfg.src_fields.length = cfg.out_cols) :
    ∀ e ∈ (handle_watermark cfg st (.eventTime t)).2.1,
      (emit_columns cfg e.bin e.batch)[cfg.window_index]?
          = some (.windowCol ((e.bin * cfg.width : Nat) : Int)
              (((e.bin * cfg.width : Nat) : Int) + (cfg.width : Int))) ∧
      (emit_columns cfg e.bin e.batch)[cfg.out_cols + 1]?
          = some (.tsCol (((e.bin * cfg.width : Nat) : Int) + (cfg.width : Int) - 1)) ∧
      (emit_columns cfg e.bin e.batch).length = cfg.out_cols + 2 ∧
      (emit_fields cfg)[cfg.window_index]? = some cfg.window_field_name ∧
      (emit_fields cfg)[cfg.out_cols + 1]? = some "_timestamp" ∧
      (emit_fields cfg).length = cfg.out_cols + 2 := by
  intro e _
  have hblen : ((List.range cfg.out_cols).map (fun i => EmitCol.src e.batch i)
      ++ [EmitCol.tsCol (((e.bin * cfg.width : Nat) : Int) + (cfg.width : Int) - 1)]).length
      = cfg.out_cols + 1 := by simp
  have hflen : (cfg.src_fields ++ ["_timestamp"]).length = cfg.out_cols + 1 := by
    simp [hf]
  refine ⟨?_, ?_, ?_, ?_, ?_, ?_⟩
  · simp only [emit_columns]
    exact insertAtIdx_getElem_self _ _ _ (by rw [hblen]; omega)
  · simp only [emit_columns]
    rw [insertAtIdx_getElem_shift _ _ _ _ hwi (by rw [hblen]; omega)]
    nth_rewrite 2 [show cfg.out_cols
        = ((List.range cfg.out_cols).map (fun i => EmitCol.src e.batch i)).length
        by simp]
    exact concat_getElem_last _ _
  · simp only [emit_columns]
    rw [insertAtIdx_length, hblen]
  · simp only [emit_fields]
    exact insertAtIdx_getElem_self _ _ _ (by rw [hflen]; omega)
  · simp only [emit_fields]
    rw [insertAtIdx_getElem_shift _ _ _ _ hwi (by rw [hflen]; omega)]
    rw [show cfg.out_cols = cfg.src_fields.length from hf.symm]
    exact concat_getElem_last _ _
  · simp only [emit_fields]
    rw [insertAtIdx_length, hflen]

theorem c2_window_metadata_attached_witness :
    testCfg.window_index ≤ testCfg.out_cols ∧
    ((⟨0, 5⟩ : Emit Int) ∈ (handle_watermark testCfg witnessState (.eventTime 25)).2.1) ∧
    (emit_columns testCfg 0 5)[testCfg.window_index]?
        = some (.windowCol ((0 * testCfg.width : Nat) : Int)
            (((0 * testCfg.width : Nat) : Int) + (testCfg.width : Int))) :=
  ⟨by decide, by decide,
   (c2_window_metadata_attached testCfg witnessState 25 (by decide) (by decide)
     ⟨0, 5⟩ (by decide)).1⟩

/-- C8 counterexample: with width 10, after bin 0 has been finalized by watermark 20
and removed from the registry, a late row with timestamp 5 (bin 0) is dispatched with
no error at all: the operator state becomes exactly what dispatching that row to a
never-seen bin produces (a fresh entry with a fresh live execution), and a later
watermark then finalizes bin 0 a second time — refuting the claim that such a row is
a fatal error and is not processed as if the bin were new. -/
theorem c8_counterexample :
    (handle_watermark testCfg (process_batch testCfg (initState Int) [(5, 1)])
        (.eventTime 20)).1.execs = [] ∧
    process_batch testCfg
        (handle_watermark testCfg (process_batch testCfg (initState Int) [(5, 1)])
          (.eventTime 20)).1 [(5, 2)]
      = process_batch testCfg (initState Int) [(5, 2)] ∧
    ((handle_watermark testCfg (process_batch testCfg
        (handle_watermark testCfg (process_batch testCfg (initState Int) [(5, 1)])
          (.eventTime 20)).1 [(5, 2)]) (.eventTime 30)).2.1).map Emit.bin = [0] := by
  exact ⟨by decide, by decide, by decide⟩

/-- C8 amended: during batch dispatch, a row producing a bin id that is absent from
the registry — in particular a bin previously finalized and removed — is silently
processed as if the bin were new: `entry(bin).or_default()` creates a fresh entry and
a fresh live execution fed exactly that row group, and no error is raised. -/
theorem c8_amended {B : Type} (cfg : TumblingConfig B) (st : OpState B)
    (rows : List Row) (b : Nat) (hl : lookup st.execs b = none)
    (hg : rows.filter (fun r => rowBin cfg.width r == b) ≠ []) :
    lookup (process_batch cfg st rows).execs b
      = some ⟨some [rows.filter (fun r => rowBin cfg.width r == b)], []⟩ := by
  rw [process_batch_lookup, if_neg hg, hl]
  rfl

theorem c8_amended_witness :
    lookup (process_batch testCfg
        (handle_watermark testCfg (process_batch testCfg (initState Int) [(5, 1)])
          (.eventTime 20)).1 [(5, 2)]).execs 0
      = some ⟨some [[(5, 2)]], []⟩ :=
  c8_amended testCfg
    (handle_watermark testCfg (process_batch testCfg (initState Int) [(5, 1)])
      (.eventTime 20)).1 [(5, 2)] 0 (by decide) (by decide)

/-- C9 counterexample: with width 10 and bin 0 the only bin, handling watermark 20
finalizes exactly bin 0 and handling watermark 25 immediately afterwards finalizes
nothing, so the cumulative set of bins finalized by the time watermark 20 is handled
equals the one by the time watermark 25 is handled — it is not a strict prefix of it,
although 20 < 25. -/
theorem c9_counterexample :
    (20 : Nat) < 25 ∧
    ((handle_watermark testCfg (process_batch testCfg (initState Int) [(5, 1)])
        (.eventTime 20)).2.1).map Emit.bin = [0] ∧
    finalizedKeys testCfg (process_batch testCfg (initState Int) [(5, 1)]) 20 = [0] ∧
    ((handle_watermark testCfg (handle_watermark testCfg
        (process_batch testCfg (initState Int) [(5, 1)]) (.eventTime 20)).1
        (.eventTime 25)).2.1).map Emit.bin = [] ∧
    finalizedKeys testCfg (handle_watermark testCfg
        (process_batch testCfg (initState Int) [(5, 1)]) (.eventTime 20)).1 25 = [] := by
  exact ⟨by decide, by decide, by decide, by decide, by decide⟩

/-- C9 amended: for watermarks `t1 < t2` handled in order with no intervening input,
the bins finalized by `t1` form a (possibly equal) prefix of all bins finalized by the
time `t2` is handled, and the combined finalized sequence is strictly increasing — in
particular no bin is finalized twice. -/
theorem c9_amended {B : Type} (cfg : TumblingConfig B) (st : OpState B) (t1 t2 : Nat)
    (hs : st.execs.Pairwise (fun a b => a.1 < b.1)) (_hlt : t1 < t2) :
    (∃ tl, finalizedKeys cfg st t1 ++ tl
        = finalizedKeys cfg st t1
          ++ finalizedKeys cfg (handle_watermark cfg st (.eventTime t1)).1 t2) ∧
    (finalizedKeys cfg st t1
        ++ finalizedKeys cfg (handle_watermark cfg st (.eventTime t1)).1 t2).Pairwise
      (fun a b => a < b) := by
  refine ⟨⟨finalizedKeys cfg (handle_watermark cfg st (.eventTime t1)).1 t2, rfl⟩, ?_⟩
  have hkeys : (st.execs.map Prod.fst).Pairwise (fun a b => a < b) :=
    List.pairwise_map.mpr hs
  apply List.pairwise_append.mpr
  refine ⟨hkeys.sublist (List.takeWhile_sublist _), ?_, ?_⟩
  · simp only [handle_watermark_eventTime, finalizedKeys]
    exact (List.pairwise_map.mpr (hs.sublist (List.dropWhile_sublist _))).sublist
      (List.takeWhile_sublist _)
  · intro a ha b hb
    have ha1 : a < t1 / cfg.width := by
      have := List.mem_takeWhile_imp ha
      simpa using this
    simp only [handle_watermark_eventTime, finalizedKeys] at hb
    have hb1 : b ∈ (st.execs.dropWhile
        (fun e => decide (e.1 < t1 / cfg.width))).map Prod.fst :=
      (List.takeWhile_sublist _).mem hb
    rcases List.mem_map.mp hb1 with ⟨e, he, rfl⟩
    have hge : t1 / cfg.width ≤ e.1 :=
      dropWhile_lt_ge (fun e => e.1) (t1 / cfg.width) st.execs hs e he
    omega

theorem c9_amended_witness :
    (∃ tl, finalizedKeys testCfg witnessState 20 ++ tl
        = finalizedKeys testCfg witnessState 20
          ++ finalizedKeys testCfg
            (handle_watermark testCfg witnessState (.eventTime 20)).1 25) ∧
    (finalizedKeys testCfg witnessState 20
        ++ finalizedKeys testCfg
          (handle_watermark testCfg witnessState (.eventTime 20)).1 25).Pairwise
      (fun a b => a < b) :=
  c9_amended testCfg witnessState 20 25 (by decide) (by decide)

theorem sumPartial_merge (xs ys : List (List Row)) :
    sumFinish (sumPartial xs ++ sumPartial ys) = sumFinish (sumPartial (xs ++ ys)) := by
  simp [sumPartial, sumFinish, List.flatten_append, List.sum_append]

theorem sumPartial_ne (xs : List (List Row)) (_h : xs ≠ []) : sumPartial xs ≠ [] := by
  simp [sumPartial]

/-- C5: checkpoint-then-restart round trip.  Checkpointing after a first input phase,
restarting by reloading the durable table, feeding the remaining input, and advancing
the watermark past bin `b`'s end emits for bin `b` exactly what processing the whole
input with no checkpoint emits — for every split of the input, provided the width is
positive, the finish plan merges split partial aggregations (the decomposition
contract of the compiled plans), and draining a non-empty fed sequence yields at
least one partial batch. -/
theorem c5_checkpoint_restart_round_trip {B : Type} (cfg : TumblingConfig B)
    (bs1 bs2 : List (List Row)) (b t : Nat) (wm1 wm2 : Option Nat)
    (hw : 0 < cfg.width)
    (hmerge : ∀ xs ys : List (List Row),
      cfg.finish_execution_plan
          (cfg.partial_aggregation_plan xs ++ cfg.partial_aggregation_plan ys)
        = cfg.finish_execution_plan (cfg.partial_aggregation_plan (xs ++ ys)))
    (hne : ∀ xs : List (List Row), xs ≠ [] → cfg.partial_aggregation_plan xs ≠ [])
    (hb : (b + 1) * cfg.width ≤ t) :
    ∀ st2 store2 f2,
      handle_checkpoint cfg (process_batches cfg (initState B) bs1) [] wm1
        = some (st2, store2, f2) →
      ((handle_watermark cfg
          (process_batches cfg (on_start cfg store2 wm2) bs2)
          (.eventTime t)).2.1).filter (fun e => e.bin == b)
        = ((handle_watermark cfg
            (process_batches cfg (initState B) (bs1 ++ bs2))
            (.eventTime t)).2.1).filter (fun e => e.bin == b) := by
  intro st2 store2 f2 hcp
  have hbcb : b < t / cfg.width := (Nat.le_div_iff_mul_le hw).mpr hb
  have hWF1 : WF (process_batches cfg (initState B) bs1) :=
    process_batches_WF cfg (initState B) bs1 (WF_initState B)
  obtain ⟨hs1, hex1, hm1⟩ := hWF1
  have hl1 : lookup (process_batches cfg (initState B) bs1).execs b
      = (if groupsFor cfg.width bs1 b = [] then none
         else some ⟨some (groupsFor cfg.width bs1 b), []⟩) := by
    rw [process_batches_lookup]
    by_cases hg1 : groupsFor cfg.width bs1 b = [] <;> simp [hg1, initState, lookup]
  have hsend : b ∈ (process_batches cfg (initState B) bs1).senders
      ↔ groupsFor cfg.width bs1 b ≠ [] := by
    rw [hm1 b]
    constructor
    · rintro ⟨h2, hl2, ha2⟩ hgnil
      rw [hl1, if_pos hgnil] at hl2
      cases hl2
    · intro hgne
      refine ⟨⟨some (groupsFor cfg.width bs1 b), []⟩, ?_, rfl⟩
      rw [hl1, if_neg hgne]
  have hfed : groupsFor cfg.width bs1 b ≠ [] →
      fedOf (process_batches cfg (initState B) bs1).execs b
        = groupsFor cfg.width bs1 b := by
    intro hgne
    simp [fedOf, holderOf, hl1, hgne]
  obtain ⟨execs2, heq, hex2, hin, hout⟩ :=
    handle_checkpoint_spec cfg (process_batches cfg (initState B) bs1) [] wm1
      ⟨hs1, hex1, hm1⟩
  rw [heq] at hcp
  injection hcp with hcp1
  injection hcp1 with hX hcp2
  injection hcp2 with hY hZ
  subst hY
  simp only [List.nil_append]
  have hall : ∀ s ∈ (process_batches cfg (initState B) bs1).senders.flatMap
      (fun k => (cfg.partial_aggregation_plan
          (fedOf (process_batches cfg (initState B) bs1).execs k)).map
        (fun x => (⟨k * cfg.width, ((k * cfg.width : Nat) : Int), x⟩ : StateBatch B))),
      s.key_time / cfg.width = b → s.key_time = b * cfg.width := by
    intro s hsm hsb
    rcases List.mem_flatMap.mp hsm with ⟨k, hk, hsk⟩
    rcases List.mem_map.mp hsk with ⟨x, _, rfl⟩
    have hkk : k * cfg.width / cfg.width = k := Nat.mul_div_cancel k hw
    have hkb : k = b := by
      rw [show (⟨k * cfg.width, ((k * cfg.width : Nat) : Int), x⟩
          : StateBatch B).key_time = k * cfg.width from rfl, hkk] at hsb
      exact hsb
    rw [hkb]
  have hrec : lookup (on_start cfg
        ((process_batches cfg (initState B) bs1).senders.flatMap
          (fun k => (cfg.partial_aggregation_plan
              (fedOf (process_batches cfg (initState B) bs1).execs k)).map
            (fun x => (⟨k * cfg.width, ((k * cfg.width : Nat) : Int), x⟩
              : StateBatch B)))) wm2).execs b
      = (if groupsFor cfg.width bs1 b = [] then none
         else some ⟨none,
           cfg.partial_aggregation_plan (groupsFor cfg.width bs1 b)⟩) := by
    rw [on_start_lookup_single_key cfg _ wm2 b (b * cfg.width)
      (Nat.mul_div_cancel b hw) hall]
    rw [flatMap_filter_key _ cfg.width hw _ b (hs1.imp (fun h => Nat.ne_of_lt h))]
    by_cases hg1 : groupsFor cfg.width bs1 b = []
    · have hbnot : b ∉ (process_batches cfg (initState B) bs1).senders :=
        fun hx => (hsend.mp hx) hg1
      rw [if_neg hbnot, if_pos hg1]
      rfl
    · have hbin : b ∈ (process_batches cfg (initState B) bs1).senders := hsend.mpr hg1
      rw [if_pos hbin, hfed hg1, if_neg hg1]
      have hpne : cfg.partial_aggregation_plan (groupsFor cfg.width bs1 b) ≠ [] :=
        hne _ hg1
      have hie : ((cfg.partial_aggregation_plan (groupsFor cfg.width bs1 b)).map
          (fun x => (⟨b * cfg.width, ((b * cfg.width : Nat) : Int), x⟩
            : StateBatch B))).isEmpty = false := by
        cases hx : cfg.partial_aggregation_plan (groupsFor cfg.width bs1 b) with
        | nil => exact absurd hx hpne
        | cons y ys => simp [hx]
      rw [hie]
      simp [List.map_map, Function.comp_def]
  have hWFB : WF (process_batches cfg (on_start cfg
      ((process_batches cfg (initState B) bs1).senders.flatMap
        (fun k => (cfg.partial_aggregation_plan
            (fedOf (process_batches cfg (initState B) bs1).execs k)).map
          (fun x => (⟨k * cfg.width, ((k * cfg.width : Nat) : Int), x⟩
            : StateBatch B)))) wm2) bs2) :=
    process_batches_WF _ _ _ (on_start_WF _ _ _)
  have hWFA : WF (process_batches cfg (initState B) (bs1 ++ bs2)) :=
    process_batches_WF _ _ _ (WF_initState B)
  rw [handle_watermark_emits_filter cfg _ t b hWFB.2.1 hbcb,
    handle_watermark_emits_filter cfg _ t b hWFA.2.1 hbcb]
  have hlA : lookup (process_batches cfg (initState B) (bs1 ++ bs2)).execs b
      = (if groupsFor cfg.width bs1 b ++ groupsFor cfg.width bs2 b = [] then none
         else some ⟨some (groupsFor cfg.width bs1 b ++ groupsFor cfg.width bs2 b),
           []⟩) := by
    rw [process_batches_lookup, groupsFor_append]
    by_cases hg : groupsFor cfg.width bs1 b ++ groupsFor cfg.width bs2 b = [] <;>
      simp [hg, initState, lookup]
  rw [process_batches_lookup, hrec, hlA]
  by_cases hg1 : groupsFor cfg.width bs1 b = []
  · by_cases hg2 : groupsFor cfg.width bs2 b = []
    · simp [hg1, hg2]
    · simp [hg1, hg2]
  · by_cases hg2 : groupsFor cfg.width bs2 b = []
    · have hgne : groupsFor cfg.width bs1 b ++ groupsFor cfg.width bs2 b ≠ [] := by
        simp [hg2, hg1]
      simp [hg1, hg2, hgne, emitsOfBin, bin_finished]
    · have hgne : groupsFor cfg.width bs1 b ++ groupsFor cfg.width bs2 b ≠ [] := by
        simp [hg1]
      simp [hg1, hg2, hgne, emitsOfBin, bin_finished, hmerge]

theorem c5_checkpoint_restart_round_trip_witness :
    ((handle_watermark testCfg
        (process_batches testCfg (on_start testCfg [⟨0, 0, 1⟩] none) [[(7, 2)]])
        (.eventTime 20)).2.1).filter (fun e => e.bin == 0)
      = ((handle_watermark testCfg
          (process_batches testCfg (initState Int) ([[(5, 1)]] ++ [[(7, 2)]]))
          (.eventTime 20)).2.1).filter (fun e => e.bin == 0) :=
  c5_checkpoint_restart_round_trip testCfg [[(5, 1)]] [[(7, 2)]] 0 20 none none
    (by decide) sumPartial_merge sumPartial_ne (by decide)
    ⟨[], [(0, ⟨none, [1]⟩)]⟩ [⟨0, 0, 1⟩] none (by decide)

end Tumbling
